import Mathlib

/-!
Verification of the core of the `roam-research-mcp` repository: the retrying
request scheduler (`src/utils/roam-api-wrapper.ts`, `src/utils/rate-limiter.ts`)
and the indented-hierarchy traversal / serialization engine
(`src/search/indented-hierarchy-search.ts`).

Text is modelled as `List Char` (JS strings are sequences of UTF-16 units; all
operations used by the source — `length`, `substring`, `lastIndexOf`, `repeat`,
concatenation — act index-wise, which `List Char` captures exactly).
Asynchronous remote calls and the external `resolveRefs` collaborator are
modelled as `Except`-returning oracles supplied in an environment record; a
thrown JS exception is an `Except.error` carrying the message.
-/

namespace Roam

/-- JS string, modelled as its sequence of characters. -/
abbrev Str := List Char

/-! ## Backoff policy and retrying scheduler

From `src/utils/roam-api-wrapper.ts`.  The Bottleneck limiter object itself is
external; `l.schedule(fn)` simply runs `fn`, so one invocation of the wrapped
function on attempt `i` is modelled by an oracle `attempts : Nat → Except Str α`
giving the outcome of the `i`-th execution.  `schedule` returns the final
outcome together with the list of backoff delays it performed (in order). -/

/-- `MAX_RETRIES` from `roam-api-wrapper.ts` line 13. -/
def MAX_RETRIES : Nat := 5

/-- `BASE_RETRY_DELAY` (ms) from `roam-api-wrapper.ts` line 15. -/
def BASE_RETRY_DELAY : Nat := 2000

/-- JS `hay.includes(needle)`: `needle` occurs contiguously inside `hay`. -/
def includesSub (hay needle : Str) : Bool := decide (needle <:+: hay)

/-- The rate-limit classifier from `roam-api-wrapper.ts` lines 33-35: the error
message includes the quota-exceeded phrasing used by the remote store. -/
def isRateLimitError (msg : Str) : Bool :=
  includesSub msg ("Too many requests".data) || includesSub msg ("rate limit".data)

/-- The retry loop of `schedule` (`roam-api-wrapper.ts` lines 26-46), with the
remaining attempt budget as the recursion measure (the source's
`for (let attempt = 0; attempt < MAX_RETRIES; attempt++)`).  The state carries
the current attempt index, the delays performed so far and `lastError`.
Falling out of the loop rethrows `lastError` (line 49). -/
def scheduleLoop {α : Type} (attempts : Nat → Except Str α) :
    Nat → Nat → List Nat → Option Str → Except Str α × List Nat
  | 0, _, delays, lastError =>
      (.error (lastError.getD ("Failed after maximum retry attempts".data)), delays)
  | remaining + 1, attempt, delays, _ =>
      match attempts attempt with
      | .ok v => (.ok v, delays)
      | .error e =>
          if isRateLimitError e then
            scheduleLoop attempts remaining (attempt + 1)
              (delays ++ [BASE_RETRY_DELAY * 2 ^ attempt]) (some e)
          else
            (.error e, delays)

/-- `schedule` from `roam-api-wrapper.ts` lines 21-50. -/
def schedule {α : Type} (attempts : Nat → Except Str α) : Except Str α × List Nat :=
  scheduleLoop attempts MAX_RETRIES 0 [] none

/-! ## splitTextIntoParts

From `src/search/indented-hierarchy-search.ts` lines 45-68.  The `while` loop
is totalized with a fuel argument equal to the length of the text: every
iteration removes at least one character whenever `1 ≤ maxSize` (the cut point
is either `maxSize` or a newline index `i` with `5*i ≥ 4*maxSize`), so that
fuel always suffices; fuel 0 with text left over returns `[]`, a case proved
unreachable below. -/

/-- JS `text.lastIndexOf('\n', k)`: the greatest index `i ≤ k` with
`text[i] = '\n'`, or `none` (JS `-1`) if there is none. -/
def lastNewlineLe (l : Str) : Nat → Option Nat
  | 0 => if l.get? 0 = some '\n' then some 0 else none
  | k + 1 => if l.get? (k + 1) = some '\n' then some (k + 1) else lastNewlineLe l k

/-- The cut point chosen by one iteration of the split loop (lines 57-61):
the last newline at or before `maxSize`, unless it is missing or in the first
80% of the window (`cutPoint < maxSize * 0.8`, i.e. `5*cutPoint < 4*maxSize`),
in which case the hard cut `maxSize` is used. -/
def splitCutPoint (remaining : Str) (maxSize : Nat) : Nat :=
  match lastNewlineLe remaining maxSize with
  | none => maxSize
  | some i => if 5 * i < 4 * maxSize then maxSize else i

/-- The split loop (lines 49-65), fuelled. -/
def splitGo : Nat → Str → Nat → List Str
  | 0, _, _ => []
  | fuel + 1, remaining, maxSize =>
      if remaining = [] then []
      else if remaining.length ≤ maxSize then [remaining]
      else
        remaining.take (splitCutPoint remaining maxSize) ::
          splitGo fuel (remaining.drop (splitCutPoint remaining maxSize)) maxSize

/-- `splitTextIntoParts` (lines 45-68).  The source gives `maxSize` the default
value 5000; both call sites use that default, so callers below pass 5000. -/
def splitTextIntoParts (text : Str) (maxSize : Nat) : List Str :=
  splitGo text.length text maxSize

/-! ## Block trees and processTree

From `src/search/indented-hierarchy-search.ts` lines 24-29 and 200-250.
`string` and `order` may be absent in the pull result (the source guards with
`block.string || ""` and `order !== undefined ? order : 0`); an absent
`children` field and an empty children array behave identically in the source
(`block.children && block.children.length > 0`), so children are a plain list. -/

/-- `BlockNode` (lines 24-29). -/
structure BlockNode where
  uid : Str
  str : Option Str
  order : Option Int
  children : List BlockNode

/-- Stable ascending insertion for `stableSort`. -/
def insertStable {α : Type} (key : α → Int) (a : α) : List α → List α
  | [] => [a]
  | b :: bs => if key a ≤ key b then a :: b :: bs else b :: insertStable key a bs

/-- JS `Array.prototype.sort` with a numeric ascending comparator is a stable
ascending sort (lines 214-219 and 134); any stable ascending sort computes the
same list, so it is modelled by stable insertion sort on the numeric key. -/
def stableSort {α : Type} (key : α → Int) : List α → List α
  | [] => []
  | a :: as => insertStable key a (stableSort key as)

/-- Sequential `Promise.all`/`await` of a list of fallible computations
(first failure rejects the whole batch). -/
def mapME {α β : Type} (f : α → Except Str β) : List α → Except Str (List β)
  | [] => .ok []
  | a :: as =>
      match f a with
      | .error e => .error e
      | .ok b =>
          match mapME f as with
          | .error e => .error e
          | .ok bs => .ok (b :: bs)

/-- Sequencing of per-block pieces `(text, count)` inside the `processTree`
loop: texts are concatenated in order and counts added; the first failing
piece aborts the loop (a rejected `resolveRefs` promise). -/
def seqPieces : List (Except Str (Str × Nat)) → Except Str (Str × Nat)
  | [] => .ok ([], 0)
  | x :: xs =>
      match x with
      | .error e => .error e
      | .ok p =>
          match seqPieces xs with
          | .error e => .error e
          | .ok r => .ok (p.1 ++ r.1, p.2 + r.2)

/-- The sort key used by `processTree` (lines 214-219):
`order !== undefined ? order : 0`. -/
def orderKey (b : BlockNode) : Int := b.order.getD 0

/-- `processTree` (lines 200-250), fuelled by the remaining depth budget: the
recursion increases `level` by 1 per call and is guarded by `level < maxDepth`,
so `maxDepth + 1 - level` bounds the recursion depth exactly; the fuel-0 case
returns the same value as the `level > maxDepth` guard and is reachable only
when that guard holds.  Per block the loop emits `indent ++ "- " ++ content ++
"\n"`, counts it, and recurses into its children with `indent ++ "  "`. -/
def processTreeGo (resolve : Str → Except Str Str) :
    Nat → List BlockNode → Nat → Nat → Str → Except Str (Str × Nat)
  | 0, _, _, _, _ => .ok ([], 0)
  | fuel + 1, blocks, level, maxDepth, indent =>
      if blocks.length = 0 ∨ maxDepth < level then .ok ([], 0)
      else
        match mapME (fun b => resolve (b.str.getD [])) (stableSort orderKey blocks) with
        | .error e => .error e
        | .ok contents =>
            seqPieces (((stableSort orderKey blocks).zip contents).map (fun bc =>
              match
                (if bc.1.children.length ≠ 0 ∧ level < maxDepth then
                  processTreeGo resolve fuel bc.1.children (level + 1) maxDepth
                    (indent ++ "  ".data)
                else .ok ([], 0)) with
              | .error e => .error e
              | .ok child =>
                  .ok (indent ++ "- ".data ++ bc.2 ++ "\n".data ++ child.1, 1 + child.2)))

/-- `processTree` (lines 200-250). -/
def processTree (resolve : Str → Except Str Str) (blocks : List BlockNode)
    (level maxDepth : Nat) (indent : Str) : Except Str (Str × Nat) :=
  processTreeGo resolve (maxDepth + 1 - level) blocks level maxDepth indent

/-! ## The execute entry point

From `src/search/indented-hierarchy-search.ts` lines 70-191.  One call issues
at most: one pull query (descendant mode), or one child-content query plus one
ancestor query (ancestor mode), plus `resolveRefs` calls; the remote responses
for this single call are supplied by a `RemoteEnv` record of `Except`-valued
oracles (a JS exception from `await q(...)` or `resolveRefs` is `.error`). -/

/-- The remote world observed by one `execute` call. -/
structure RemoteEnv where
  /-- Result of the descendant-mode pull query (line 94); `none` is JS `null`. -/
  pullResult : Except Str (Option BlockNode)
  /-- Rows of the child-content query (line 111), each row a `?string` value. -/
  childRows : Except Str (List Str)
  /-- Rows of the ancestor query (line 133): `(?uid, ?string, ?depth)` where
  `?depth` is `(get-else $ ?b :block/path-length 1)`. -/
  ancestorRows : Except Str (List (Str × Str × Int))
  /-- The external `resolveRefs` collaborator. -/
  resolve : Str → Except Str Str

/-- Tool parameters (lines 15-21). -/
structure IndentedHierarchyParams where
  parent_uid : Option Str
  child_uid : Option Str
  page_title_uid : Option Str
  max_depth : Option Nat
  part : Option Int

/-- One element of `matches` in a result (the source attaches
`total_parts`/`current_part` only in the paginated branch, hence `Option`). -/
structure SearchMatch where
  block_uid : Str
  content : Str
  is_indented_hierarchy : Bool
  total_parts : Option Nat
  current_part : Option Int

/-- A `SearchResult` as produced by this handler. -/
structure SearchResult where
  success : Bool
  matches' : List SearchMatch
  message : Str

/-- `"  ".repeat i`. -/
def indentStr (i : Nat) : Str := (List.replicate i ("  ".data)).flatten

/-- Decimal rendering of a count for messages. -/
def natStr (n : Nat) : Str := Nat.toDigits 10 n

/-- The ancestor-rendering loop (lines 137-139): ancestor `i` on its own line
at indentation `"  ".repeat i`. -/
def renderChain : Nat → List Str → Str
  | _, [] => []
  | i, c :: rest => indentStr i ++ "- ".data ++ c ++ "\n".data ++ renderChain (i + 1) rest

/-- The paginated-result message (lines 153-157).  The source appends one more
usage-hint sentence naming the `part` parameter; it is elided here (the exact
message text is irrelevant to the result structure). -/
def mkSplitMessage (totalBlocks totalParts : Nat) (requestedPart : Int) : Str :=
  "Found ".data ++ natStr totalBlocks ++ " blocks in hierarchy. ".data ++
    (if 1 < totalParts then
      "Result split into ".data ++ natStr totalParts ++ " parts. Showing part ".data ++
        natStr requestedPart.toNat ++ " of ".data ++ natStr totalParts ++ ".".data
    else [])

/-- The tail of `execute` (lines 144-181): split the rendered list into parts
when it exceeds 5000 characters (returning the clamped requested part), else
return it whole. -/
def finalize (indentedList : Str) (totalBlocks : Nat) (part : Int) : SearchResult :=
  if 5000 < indentedList.length then
    { success := true
      matches' := [{
        block_uid := "indented_hierarchy".data
        content := (splitTextIntoParts indentedList 5000).getD
          ((min (max 1 part) ((splitTextIntoParts indentedList 5000).length : Int) - 1).toNat) []
        is_indented_hierarchy := true
        total_parts := some (splitTextIntoParts indentedList 5000).length
        current_part := some (min (max 1 part)
          ((splitTextIntoParts indentedList 5000).length : Int)) }]
      message := mkSplitMessage totalBlocks (splitTextIntoParts indentedList 5000).length
        (min (max 1 part) ((splitTextIntoParts indentedList 5000).length : Int)) }
  else
    { success := true
      matches' := [{
        block_uid := "indented_hierarchy".data
        content := indentedList
        is_indented_hierarchy := true
        total_parts := none
        current_part := none }]
      message := "Found ".data ++ natStr totalBlocks ++ " blocks in hierarchy".data }

/-- The `try` body of `execute` (lines 84-181): descendant mode when
`parent_uid` is supplied, else ancestor mode when `child_uid` is supplied;
with neither the source falls through with an empty list (unreachable after
the guard in `execute`).  Early `return`s are `.ok` results; a thrown remote
error is `.error` and is converted by the `catch` in `execute`. -/
def executeBody (env : RemoteEnv) (parent_uid child_uid : Option Str)
    (effectiveMaxDepth : Nat) (part : Int) : Except Str SearchResult :=
  match parent_uid with
  | some p =>
      match env.pullResult with
      | .error e => .error e
      | .ok none =>
          .ok { success := false, matches' := [],
                message := "Block with UID ".data ++ p ++ " not found".data }
      | .ok (some root) =>
          match processTree env.resolve [root] 1 effectiveMaxDepth [] with
          | .error e => .error e
          | .ok tb => .ok (finalize tb.1 tb.2 part)
  | none =>
      match child_uid with
      | some c =>
          match env.childRows with
          | .error e => .error e
          | .ok [] =>
              .ok { success := false, matches' := [],
                    message := "Block with UID ".data ++ c ++ " not found".data }
          | .ok (s :: _) =>
              match env.resolve s with
              | .error e => .error e
              | .ok childContent =>
                  match env.ancestorRows with
                  | .error e => .error e
                  | .ok raw =>
                      match mapME (fun t => env.resolve t.2.1)
                          ((stableSort (fun t => t.2.2) raw).take (effectiveMaxDepth - 1)) with
                      | .error e => .error e
                      | .ok ancestorContents =>
                          .ok (finalize
                            (renderChain 0 ancestorContents ++
                              indentStr ancestorContents.length ++ "- ".data ++
                                childContent ++ "\n".data)
                            (ancestorContents.length + 1) part)
      | none => .ok (finalize [] 0 part)

/-- `execute` (lines 70-191).  `max_depth` defaults to 1 and `part` to 1
(line 71); `effectiveMaxDepth = Math.min(max_depth, 7)` (line 74); the missing
anchor guard (lines 76-82) precedes the `try`, whose `catch` (lines 183-190)
converts any thrown error into the failure shape. -/
def execute (env : RemoteEnv) (params : IndentedHierarchyParams) : SearchResult :=
  if params.parent_uid = none ∧ params.child_uid = none then
    { success := false, matches' := [],
      message := "Either parent_uid or child_uid must be provided".data }
  else
    match executeBody env params.parent_uid params.child_uid
        (min (params.max_depth.getD 1) 7) (params.part.getD 1) with
    | .ok r => r
    | .error e =>
        { success := false, matches' := [],
          message := "Error processing hierarchy: ".data ++ e }

/-! ## Depth-annotated line listing

`linesOfGo` mirrors `processTreeGo` for a total (never-failing) `resolveRefs`,
recording for every emitted line its indentation depth (in units of two
spaces) together with its resolved content instead of the flat text; it is the
characterization through which depth invariants of `processTree` are stated,
and is tied to `processTree` by `processTree_eq_renderLines` below. -/

/-- The depth/content pairs of the lines `processTree` emits, in order.  A
block processed at `level` is rendered behind the indent accumulated since
`level = 1`, i.e. at depth `level - 1`. -/
def linesOfGo (r : Str → Str) : Nat → List BlockNode → Nat → Nat → List (Nat × Str)
  | 0, _, _, _ => []
  | fuel + 1, blocks, level, maxDepth =>
      if blocks.length = 0 ∨ maxDepth < level then []
      else
        ((stableSort orderKey blocks).map (fun b =>
          (level - 1, r (b.str.getD [])) ::
            (if b.children.length ≠ 0 ∧ level < maxDepth then
              linesOfGo r fuel b.children (level + 1) maxDepth
            else []))).flatten

/-- `linesOfGo` with the same fuel as `processTree`. -/
def linesOf (r : Str → Str) (blocks : List BlockNode) (level maxDepth : Nat) :
    List (Nat × Str) :=
  linesOfGo r (maxDepth + 1 - level) blocks level maxDepth

/-- One rendered line: `2*depth` spaces, `"- "`, the content, a newline. -/
def renderLine (p : Nat × Str) : Str :=
  indentStr p.1 ++ "- ".data ++ p.2 ++ "\n".data

/-- Rendering of a depth-annotated line listing. -/
def renderLines (L : List (Nat × Str)) : Str := (L.map renderLine).flatten

/-! ## Concrete instances used by witnesses and counterexamples -/

/-- An operation that hits the rate limit twice and then succeeds. -/
def attRetry : Nat → Except Str Nat :=
  fun i => if i < 2 then .error ("rate limit".data) else .ok 7

/-- An operation that hits the rate limit once and then fails fatally. -/
def attFatal : Nat → Except Str Nat :=
  fun i => if i = 0 then .error ("Too many requests - slow down".data)
    else .error ("boom".data)

/-- An environment whose remote always answers with empty results. -/
def envEmpty : RemoteEnv :=
  { pullResult := .ok none
    childRows := .ok []
    ancestorRows := .ok []
    resolve := fun s => .ok s }

/-- A request supplying neither anchor. -/
def paramsNoAnchor : IndentedHierarchyParams :=
  { parent_uid := none, child_uid := none, page_title_uid := none,
    max_depth := none, part := none }

/-- Ancestor-mode remote responses for a three-block chain
`grandparent ← parent ← child`: the transitive-ancestor query returns the two
ancestors with the nearest one (the direct parent) listed first, and — as on
every real graph, where no `:block/path-length` attribute exists — the
`get-else` depth defaults to 1 for both rows. -/
def envChain : RemoteEnv :=
  { pullResult := .ok none
    childRows := .ok ["child".data]
    ancestorRows := .ok [("p1".data, "nearest".data, 1), ("p2".data, "farthest".data, 1)]
    resolve := fun s => .ok s }

/-- An ancestor-mode request on that chain with `max_depth = 3`. -/
def paramsChain : IndentedHierarchyParams :=
  { parent_uid := none, child_uid := some "c1".data, page_title_uid := none,
    max_depth := some 3, part := none }

/-- A pathological single-line block content of 5001 characters. -/
def bigContent : Str := List.replicate 5001 'a'

/-- Ancestor-mode remote responses for a block with no ancestors whose content
is `bigContent`, so the whole rendered output is the single line
`"- " ++ bigContent ++ "\n"` (5004 characters, over the 5000 cap). -/
def envBig : RemoteEnv :=
  { pullResult := .ok none
    childRows := .ok [bigContent]
    ancestorRows := .ok []
    resolve := fun s => .ok s }

/-- An ancestor-mode request for that block (defaults: depth 1, part 1). -/
def paramsBig : IndentedHierarchyParams :=
  { parent_uid := none, child_uid := some "c2".data, page_title_uid := none,
    max_depth := none, part := none }

/-- A root block with two children whose `order` values arrive out of order. -/
def rootExample : BlockNode :=
  { uid := "u0".data, str := some "r".data, order := some 0,
    children := [
      { uid := "u2".data, str := some "b".data, order := some 1, children := [] },
      { uid := "u1".data, str := some "a".data, order := some 0, children := [] }] }

/-! ## Scheduler lemmas -/

/-- Peeling the first delay off a shifted doubling-delay list. -/
theorem rangeDelayShift : ∀ (k a : Nat),
    (List.range (k + 1)).map (fun i => BASE_RETRY_DELAY * 2 ^ (a + i)) =
      (BASE_RETRY_DELAY * 2 ^ a) ::
        (List.range k).map (fun i => BASE_RETRY_DELAY * 2 ^ (a + 1 + i))
  | 0, a => by
      rw [List.range_succ]
      simp
  | k + 1, a => by
      rw [List.range_succ, List.map_append, rangeDelayShift k a]
      rw [List.range_succ, List.map_append]
      simp only [List.map_cons, List.map_nil, List.cons_append]
      have h : a + (k + 1) = a + 1 + k := by omega
      rw [h]

/-- If the `k` attempts starting at `attempt` all fail with rate-limit errors
and attempt `attempt + k` succeeds (within the remaining budget), the loop
returns the success after appending exactly the `k` doubling delays. -/
theorem scheduleLoop_ok {α : Type} (attempts : Nat → Except Str α) (errs : Nat → Str)
    (v : α) :
    ∀ (k remaining attempt : Nat) (delays : List Nat) (le : Option Str),
      k < remaining →
      (∀ i, i < k → attempts (attempt + i) = .error (errs (attempt + i)) ∧
        isRateLimitError (errs (attempt + i)) = true) →
      attempts (attempt + k) = .ok v →
      scheduleLoop attempts remaining attempt delays le =
        (.ok v, delays ++ (List.range k).map (fun i => BASE_RETRY_DELAY * 2 ^ (attempt + i)))
  | 0, remaining + 1, attempt, delays, le, _, _, hok => by
      simp only [Nat.add_zero] at hok
      simp only [scheduleLoop.eq_2, hok]
      simp
  | k + 1, remaining + 1, attempt, delays, le, hlt, herr, hok => by
      have h0 := herr 0 (Nat.succ_pos k)
      simp only [Nat.add_zero] at h0
      have hrec := scheduleLoop_ok attempts errs v k remaining (attempt + 1)
        (delays ++ [BASE_RETRY_DELAY * 2 ^ attempt]) (some (errs attempt))
        (Nat.lt_of_succ_lt_succ hlt)
        (fun i hi => by
          have := herr (i + 1) (Nat.succ_lt_succ hi)
          simpa [Nat.add_assoc, Nat.add_comm 1 i] using this)
        (by simpa [Nat.add_assoc, Nat.add_comm 1 k] using hok)
      rw [scheduleLoop.eq_2]
      simp only [h0.1, h0.2, if_true]
      rw [hrec]
      rw [rangeDelayShift]
      simp [List.append_assoc]

/-- If the first `j` attempts fail with rate-limit errors and attempt `j`
fails with a non-rate-limit error, the loop surfaces that error at once, with
no delay recorded for it. -/
theorem scheduleLoop_fatal {α : Type} (attempts : Nat → Except Str α) (errs : Nat → Str)
    (e : Str) (hfat : isRateLimitError e = false) :
    ∀ (j remaining attempt : Nat) (delays : List Nat) (le : Option Str),
      j < remaining →
      (∀ i, i < j → attempts (attempt + i) = .error (errs (attempt + i)) ∧
        isRateLimitError (errs (attempt + i)) = true) →
      attempts (attempt + j) = .error e →
      scheduleLoop attempts remaining attempt delays le =
        (.error e, delays ++ (List.range j).map (fun i => BASE_RETRY_DELAY * 2 ^ (attempt + i)))
  | 0, remaining + 1, attempt, delays, le, _, _, hje => by
      simp only [Nat.add_zero] at hje
      simp only [scheduleLoop.eq_2, hje, hfat]
      simp
  | j + 1, remaining + 1, attempt, delays, le, hlt, herr, hje => by
      have h0 := herr 0 (Nat.succ_pos j)
      simp only [Nat.add_zero] at h0
      have hrec := scheduleLoop_fatal attempts errs e hfat j remaining (attempt + 1)
        (delays ++ [BASE_RETRY_DELAY * 2 ^ attempt]) (some (errs attempt))
        (Nat.lt_of_succ_lt_succ hlt)
        (fun i hi => by
          have := herr (i + 1) (Nat.succ_lt_succ hi)
          simpa [Nat.add_assoc, Nat.add_comm 1 i] using this)
        (by simpa [Nat.add_assoc, Nat.add_comm 1 j] using hje)
      rw [scheduleLoop.eq_2]
      simp only [h0.1, h0.2, if_true]
      rw [hrec]
      rw [rangeDelayShift]
      simp [List.append_assoc]

/-- If every attempt within the remaining budget fails with a rate-limit
error, the loop performs all the delays (one per failed attempt, the last one
included) and rethrows the last observed error. -/
theorem scheduleLoop_exhaust {α : Type} (attempts : Nat → Except Str α) (errs : Nat → Str) :
    ∀ (remaining attempt : Nat) (delays : List Nat) (le : Option Str),
      0 < remaining →
      (∀ i, i < remaining → attempts (attempt + i) = .error (errs (attempt + i)) ∧
        isRateLimitError (errs (attempt + i)) = true) →
      scheduleLoop attempts remaining attempt delays le =
        (.error (errs (attempt + remaining - 1)),
          delays ++ (List.range remaining).map (fun i => BASE_RETRY_DELAY * 2 ^ (attempt + i)))
  | 1, attempt, delays, le, _, herr => by
      have h0 := herr 0 Nat.one_pos
      simp only [Nat.add_zero] at h0
      simp only [scheduleLoop.eq_2, scheduleLoop.eq_1, h0.1, h0.2, if_true]
      rw [rangeDelayShift]
      simp
  | remaining + 2, attempt, delays, le, _, herr => by
      have h0 := herr 0 (Nat.succ_pos _)
      simp only [Nat.add_zero] at h0
      have hrec := scheduleLoop_exhaust attempts errs (remaining + 1) (attempt + 1)
        (delays ++ [BASE_RETRY_DELAY * 2 ^ attempt]) (some (errs attempt))
        (Nat.succ_pos _)
        (fun i hi => by
          have := herr (i + 1) (Nat.succ_lt_succ hi)
          simpa [Nat.add_assoc, Nat.add_comm 1 i] using this)
      rw [scheduleLoop.eq_2]
      simp only [h0.1, h0.2, if_true]
      rw [hrec]
      have h1 : attempt + 1 + (remaining + 1) - 1 = attempt + (remaining + 2) - 1 := by omega
      rw [h1]
      conv_rhs => rw [rangeDelayShift]
      simp [List.append_assoc]

/-- The doubling delays are strictly increasing. -/
theorem delays_pairwise (k : Nat) :
    ((List.range k).map (fun i => BASE_RETRY_DELAY * 2 ^ i)).Pairwise (· < ·) := by
  refine List.Pairwise.map _ (fun a b hab => ?_) (List.pairwise_lt_range k)
  have h2 : (2 : Nat) ^ a < 2 ^ b := Nat.pow_lt_pow_right (by norm_num) hab
  simp only [BASE_RETRY_DELAY]
  omega

/-- C1: if the wrapped function fails with a quota-exceeded (rate-limit) error
on exactly the first `k < MAX_RETRIES` attempts and then succeeds, `schedule`
returns the success after performing exactly the `k` delays
`BASE_RETRY_DELAY * 2 ^ attempt`, which are strictly increasing (doubling);
if it fails with a quota-exceeded error on every attempt up to the ceiling,
`schedule` performs all delays and surfaces a terminal failure carrying the
last observed error. -/
theorem schedule_retry_backoff {α : Type} (attempts : Nat → Except Str α)
    (errs : Nat → Str) (k : Nat) (v : α)
    (herr : ∀ i, i < k → attempts i = .error (errs i) ∧ isRateLimitError (errs i) = true) :
    (k < MAX_RETRIES → attempts k = .ok v →
      schedule attempts =
        (.ok v, (List.range k).map (fun i => BASE_RETRY_DELAY * 2 ^ i)) ∧
      ((List.range k).map (fun i => BASE_RETRY_DELAY * 2 ^ i)).Pairwise (· < ·)) ∧
    (k = MAX_RETRIES →
      schedule attempts =
        (.error (errs (k - 1)), (List.range k).map (fun i => BASE_RETRY_DELAY * 2 ^ i))) := by
  constructor
  · intro hk hok
    refine ⟨?_, delays_pairwise k⟩
    have h := scheduleLoop_ok attempts errs v k MAX_RETRIES 0 [] none hk
      (fun i hi => by simpa using herr i hi) (by simpa using hok)
    simpa [schedule] using h
  · intro hk
    subst hk
    have h := scheduleLoop_exhaust attempts errs MAX_RETRIES 0 [] none
      (by norm_num [MAX_RETRIES])
      (fun i hi => by simpa using herr i hi)
    simpa [schedule] using h

/-- Witness for C1: an operation rate-limited exactly twice succeeds on the
third attempt after the two doubling delays 2000 and 4000. -/
theorem schedule_retry_backoff_witness :
    (∀ i, i < 2 → attRetry i = .error ("rate limit".data) ∧
      isRateLimitError ("rate limit".data) = true) ∧
    schedule attRetry = (.ok 7, [2000, 4000]) ∧
    ([2000, 4000] : List Nat).Pairwise (· < ·) := by
  refine ⟨fun i hi => by interval_cases i <;> exact ⟨rfl, by decide⟩, ?_, by decide⟩
  have h := (schedule_retry_backoff attRetry (fun _ => "rate limit".data) 2 7
    (fun i hi => by interval_cases i <;> exact ⟨rfl, by decide⟩)).1 (by decide) rfl
  have h2 : (List.range 2).map (fun i => BASE_RETRY_DELAY * 2 ^ i) = [2000, 4000] := by decide
  rw [h2] at h
  exact h.1

/-- C4: `schedule` retries an error only when its message matches the
quota-exceeded phrasing: a non-matching error surfaces immediately, with no
backoff delay performed for it and independently of the remaining attempt
budget, while a matching error (budget permitting) leads to a further attempt. -/
theorem schedule_fatal_immediate {α : Type} (attempts : Nat → Except Str α)
    (errs : Nat → Str) (j : Nat) (e : Str) (v : α)
    (herr : ∀ i, i < j → attempts i = .error (errs i) ∧ isRateLimitError (errs i) = true)
    (hj : j < MAX_RETRIES) (hje : attempts j = .error e) :
    (isRateLimitError e = false →
      schedule attempts =
        (.error e, (List.range j).map (fun i => BASE_RETRY_DELAY * 2 ^ i))) ∧
    (isRateLimitError e = true → j + 1 < MAX_RETRIES → attempts (j + 1) = .ok v →
      schedule attempts =
        (.ok v, (List.range (j + 1)).map (fun i => BASE_RETRY_DELAY * 2 ^ i))) := by
  constructor
  · intro hfat
    have h := scheduleLoop_fatal attempts errs e hfat j MAX_RETRIES 0 [] none hj
      (fun i hi => by simpa using herr i hi) (by simpa using hje)
    simpa [schedule] using h
  · intro hrl hj1 hok
    have key := scheduleLoop_ok attempts (fun i => if i = j then e else errs i) v (j + 1)
      MAX_RETRIES 0 [] none hj1
      (fun i hi => by
        simp only [Nat.zero_add]
        rcases Nat.lt_succ_iff_lt_or_eq.mp hi with h | h
        · have hh := herr i h
          simp [Nat.ne_of_lt h, hh.1, hh.2]
        · subst h
          simp [hje, hrl])
      (by simpa using hok)
    simpa [schedule] using key

/-- Witness for C4: after one rate-limit failure, a fatal error on the second
attempt propagates at once with only the first delay performed. -/
theorem schedule_fatal_immediate_witness :
    isRateLimitError ("boom".data) = false ∧
    schedule attFatal = (.error ("boom".data), [2000]) := by
  constructor
  · decide
  · have h := (schedule_fatal_immediate attFatal
      (fun _ => "Too many requests - slow down".data) 1 ("boom".data) 0
      (fun i hi => by interval_cases i <;> exact ⟨rfl, by decide⟩)
      (by decide) rfl).1 (by decide)
    have h2 : (List.range 1).map (fun i => BASE_RETRY_DELAY * 2 ^ i) = [2000] := by decide
    rw [h2] at h
    exact h

/-! ## splitTextIntoParts lemmas -/

/-- A found newline index is within the searched window. -/
theorem lastNewlineLe_le (l : Str) : ∀ (k i : Nat), lastNewlineLe l k = some i → i ≤ k
  | 0, i => by
      intro h
      simp only [lastNewlineLe] at h
      split at h
      · simp_all
      · exact absurd h (by simp)
  | k + 1, i => by
      intro h
      simp only [lastNewlineLe] at h
      split at h
      · simp_all
      · exact Nat.le_succ_of_le (lastNewlineLe_le l k i h)

/-- The cut point is at least 1 when `maxSize` is. -/
theorem splitCutPoint_pos (rem : Str) (m : Nat) (hm : 1 ≤ m) :
    1 ≤ splitCutPoint rem m := by
  unfold splitCutPoint
  split
  · exact hm
  · split
    · exact hm
    · omega

/-- The cut point never exceeds `maxSize`. -/
theorem splitCutPoint_le (rem : Str) (m : Nat) : splitCutPoint rem m ≤ m := by
  unfold splitCutPoint
  split
  · exact Nat.le_refl m
  · split
    · exact Nat.le_refl m
    · exact lastNewlineLe_le rem m _ (by assumption)

/-- With fuel at least the text length, concatenating the parts gives back the
text. -/
theorem splitGo_flatten : ∀ (fuel : Nat) (rem : Str) (m : Nat), 1 ≤ m →
    rem.length ≤ fuel → (splitGo fuel rem m).flatten = rem
  | 0, rem, m, _, hlen => by
      have h : rem = [] := List.length_eq_zero.mp (Nat.le_zero.mp hlen)
      subst h
      rfl
  | fuel + 1, rem, m, hm, hlen => by
      by_cases h1 : rem = []
      · subst h1
        simp [splitGo]
      · by_cases h2 : rem.length ≤ m
        · simp [splitGo, h1, h2]
        · have hc1 : 1 ≤ splitCutPoint rem m := splitCutPoint_pos rem m hm
          have hdrop : (rem.drop (splitCutPoint rem m)).length ≤ fuel := by
            simp only [List.length_drop]
            omega
          simp only [splitGo, if_neg h1, if_neg h2, List.flatten_cons]
          rw [splitGo_flatten fuel _ m hm hdrop]
          exact List.take_append_drop _ rem

/-- Every part is non-empty and at most `maxSize` long. -/
theorem splitGo_parts : ∀ (fuel : Nat) (rem : Str) (m : Nat), 1 ≤ m →
    ∀ p ∈ splitGo fuel rem m, p ≠ [] ∧ p.length ≤ m
  | 0, rem, m, _ => by simp [splitGo]
  | fuel + 1, rem, m, hm => by
      by_cases h1 : rem = []
      · subst h1
        simp [splitGo]
      · by_cases h2 : rem.length ≤ m
        · simp only [splitGo, if_neg h1, if_pos h2, List.mem_singleton]
          rintro p rfl
          exact ⟨h1, h2⟩
        · have hc1 : 1 ≤ splitCutPoint rem m := splitCutPoint_pos rem m hm
          have hcle : splitCutPoint rem m ≤ m := splitCutPoint_le rem m
          have hlt : m < rem.length := Nat.lt_of_not_le h2
          simp only [splitGo, if_neg h1, if_neg h2, List.mem_cons]
          rintro p (rfl | hp)
          · constructor
            · have : (rem.take (splitCutPoint rem m)).length = splitCutPoint rem m := by
                simp only [List.length_take]
                omega
              intro hnil
              rw [hnil] at this
              simp at this
              omega
            · simp only [List.length_take]
              omega
          · exact splitGo_parts fuel _ m hm p hp

/-- The split result does not depend on the fuel once it covers the text
length: the loop terminates. -/
theorem splitGo_fuelIrrel : ∀ (f1 f2 : Nat) (rem : Str) (m : Nat), 1 ≤ m →
    rem.length ≤ f1 → rem.length ≤ f2 → splitGo f1 rem m = splitGo f2 rem m
  | 0, 0, _, _, _, _, _ => rfl
  | 0, f2 + 1, rem, m, _, h1, _ => by
      have h : rem = [] := List.length_eq_zero.mp (Nat.le_zero.mp h1)
      subst h
      simp [splitGo]
  | f1 + 1, 0, rem, m, _, _, h2 => by
      have h : rem = [] := List.length_eq_zero.mp (Nat.le_zero.mp h2)
      subst h
      simp [splitGo]
  | f1 + 1, f2 + 1, rem, m, hm, h1, h2 => by
      by_cases he : rem = []
      · subst he
        simp [splitGo]
      · by_cases hle : rem.length ≤ m
        · simp [splitGo, he, hle]
        · have hc1 : 1 ≤ splitCutPoint rem m := splitCutPoint_pos rem m hm
          have hd1 : (rem.drop (splitCutPoint rem m)).length ≤ f1 := by
            simp only [List.length_drop]
            omega
          have hd2 : (rem.drop (splitCutPoint rem m)).length ≤ f2 := by
            simp only [List.length_drop]
            omega
          simp only [splitGo, if_neg he, if_neg hle]
          rw [splitGo_fuelIrrel f1 f2 _ m hm hd1 hd2]

/-- A nonempty text splits into at least one part. -/
theorem splitGo_ne_nil (fuel : Nat) (rem : Str) (m : Nat) (hne : rem ≠ [])
    (hlen : rem.length ≤ fuel) : splitGo fuel rem m ≠ [] := by
  cases fuel with
  | zero =>
      exact absurd (List.length_eq_zero.mp (Nat.le_zero.mp hlen)) hne
  | succ fuel =>
      by_cases h2 : rem.length ≤ m
      · simp [splitGo, hne, h2]
      · simp [splitGo, hne, h2]

/-- C2: concatenating, in index order and with no added separators, all parts
returned by `splitTextIntoParts` reproduces the input text exactly (for any
positive part-size ceiling, in particular the default 5000). -/
theorem split_roundtrip (text : Str) (maxSize : Nat) (h : 1 ≤ maxSize) :
    (splitTextIntoParts text maxSize).flatten = text :=
  splitGo_flatten text.length text maxSize h (Nat.le_refl _)

/-- Witness for C2 on the text `"ab\ncd"` with ceiling 3. -/
theorem split_roundtrip_witness :
    (1 : Nat) ≤ 3 ∧ (splitTextIntoParts ("ab\ncd".data) 3).flatten = "ab\ncd".data :=
  ⟨by decide, split_roundtrip ("ab\ncd".data) 3 (by decide)⟩

/-- C10: on a non-empty text with the default ceiling 5000 the split loop
terminates (the result is already fixed by fuel `text.length`, so any larger
fuel computes the same parts), produces at least one part, and every returned
part is non-empty and at most 5000 characters long. -/
theorem split_parts_bounded (text : Str) (h : text ≠ []) :
    splitTextIntoParts text 5000 ≠ [] ∧
    (∀ p ∈ splitTextIntoParts text 5000, p ≠ [] ∧ p.length ≤ 5000) ∧
    (∀ fuel, text.length ≤ fuel → splitGo fuel text 5000 = splitTextIntoParts text 5000) := by
  refine ⟨splitGo_ne_nil text.length text 5000 h (Nat.le_refl _),
    fun p hp => splitGo_parts text.length text 5000 (by norm_num) p hp,
    fun fuel hf => splitGo_fuelIrrel fuel text.length text 5000 (by norm_num) hf (Nat.le_refl _)⟩

/-- Witness for C10 on the text `"hello\n"`. -/
theorem split_parts_bounded_witness :
    ("hello\n".data ≠ ([] : Str)) ∧
    (∀ p ∈ splitTextIntoParts ("hello\n".data) 5000, p ≠ [] ∧ p.length ≤ 5000) :=
  ⟨by decide, (split_parts_bounded ("hello\n".data) (by decide)).2.1⟩

/-! ## execute lemmas -/

/-- Both branches of the size governor return a success result. -/
theorem finalize_success (t : Str) (n : Nat) (p : Int) : (finalize t n p).success = true := by
  unfold finalize
  split
  · rfl
  · rfl

/-- Every `.ok` result of the `try` body that reports failure has an empty
match list (the only failing bodies are the two not-found early returns). -/
theorem executeBody_shape (env : RemoteEnv) (parent_uid child_uid : Option Str)
    (d : Nat) (part : Int) (r : SearchResult)
    (h : executeBody env parent_uid child_uid d part = .ok r)
    (hs : r.success = false) : r.matches' = [] := by
  unfold executeBody at h
  repeat' split at h
  all_goals
    first
      | exact (Except.noConfusion h)
      | (injection h with h
         subst h
         simp_all [finalize_success])

/-- C9: when both `parent_uid` and `child_uid` are supplied, `execute` runs
descendant mode on `parent_uid` and ignores `child_uid` entirely — the result
is identical to the same request without `child_uid`, and no error about the
double anchor is reported. -/
theorem execute_both_anchors_uses_parent (env : RemoteEnv) (p c : Str)
    (ptu : Option Str) (md : Option Nat) (pt : Option Int) :
    execute env { parent_uid := some p, child_uid := some c, page_title_uid := ptu,
                  max_depth := md, part := pt } =
    execute env { parent_uid := some p, child_uid := none, page_title_uid := ptu,
                  max_depth := md, part := pt } := rfl

/-- C7: `execute` is a total function into well-formed results, and every
failure it reports has the shape `success = false, matches = []` with a
message: whenever the result reports failure the match list is empty, and each
of the failure conditions — no anchor supplied, thrown remote/resolution error
(`executeBody` returning `.error`), descendant anchor not found, ancestor
anchor not found — yields a `success = false` result. -/
theorem execute_failure_shape (env : RemoteEnv) (params : IndentedHierarchyParams) :
    ((execute env params).success = false → (execute env params).matches' = []) ∧
    (params.parent_uid = none ∧ params.child_uid = none →
      (execute env params).success = false) ∧
    (∀ e, executeBody env params.parent_uid params.child_uid
        (min (params.max_depth.getD 1) 7) (params.part.getD 1) = .error e →
      (execute env params).success = false) ∧
    (∀ p, params.parent_uid = some p → env.pullResult = .ok none →
      (execute env params).success = false) ∧
    (∀ c, params.parent_uid = none → params.child_uid = some c → env.childRows = .ok [] →
      (execute env params).success = false) := by
  by_cases hg : params.parent_uid = none ∧ params.child_uid = none
  · refine ⟨?_, ?_, ?_, ?_, ?_⟩ <;> (intros; simp [execute, hg])
  · cases hb : executeBody env params.parent_uid params.child_uid
        (min (params.max_depth.getD 1) 7) (params.part.getD 1) with
    | error e =>
        refine ⟨?_, ?_, ?_, ?_, ?_⟩ <;> (intros; simp [execute, hg, hb])
    | ok r =>
        have hexec : execute env params = r := by
          simp [execute, hg, hb]
        refine ⟨?_, ?_, ?_, ?_, ?_⟩
        · rw [hexec]
          exact executeBody_shape env _ _ _ _ r hb
        · intro h
          exact absurd h hg
        · intro e h
          exact Except.noConfusion h
        · intro p hp hpr
          rw [hexec]
          simp only [executeBody, hp, hpr] at hb
          simp only [Except.ok.injEq] at hb
          rw [← hb]
        · intro c hp hc hrows
          rw [hexec]
          simp only [executeBody, hp, hc, hrows] at hb
          simp only [Except.ok.injEq] at hb
          rw [← hb]

/-- Witness for C7: the anchorless request yields the failure shape. -/
theorem execute_failure_shape_witness :
    (execute envEmpty paramsNoAnchor).success = false ∧
    (execute envEmpty paramsNoAnchor).matches' = [] := by
  have h := execute_failure_shape envEmpty paramsNoAnchor
  have hs := h.2.1 ⟨rfl, rfl⟩
  exact ⟨hs, h.1 hs⟩

/-! ## processTree / linesOf correspondence -/

/-- `mapME` over a total oracle is the plain map. -/
theorem mapME_pure {α β : Type} (g : α → β) :
    ∀ l : List α, mapME (fun a => (Except.ok (g a) : Except Str β)) l = .ok (l.map g)
  | [] => rfl
  | a :: as => by simp [mapME, mapME_pure g as]

/-- Zipping a list with its own map pairs each element with its image. -/
theorem zip_self_map {α β : Type} (g : α → β) :
    ∀ l : List α, l.zip (l.map g) = l.map (fun a => (a, g a))
  | [] => rfl
  | a :: as => by simp [zip_self_map g as]

/-- Growing the indent by one step. -/
theorem indentStr_succ (n : Nat) : indentStr n ++ "  ".data = indentStr (n + 1) := by
  rw [indentStr, indentStr, List.replicate_succ', List.flatten_append]
  simp

/-- With a total `resolveRefs`, `processTreeGo` at the indent accumulated for
`level` returns exactly the rendering of its depth-annotated line listing,
and counts one block per line. -/
theorem processTreeGo_pure (r : Str → Str) :
    ∀ (fuel : Nat) (blocks : List BlockNode) (level maxDepth : Nat), 1 ≤ level →
      processTreeGo (fun s => .ok (r s)) fuel blocks level maxDepth (indentStr (level - 1)) =
        .ok (renderLines (linesOfGo r fuel blocks level maxDepth),
          (linesOfGo r fuel blocks level maxDepth).length)
  | 0, blocks, level, maxDepth, _ => by
      simp [processTreeGo, linesOfGo, renderLines]
  | fuel + 1, blocks, level, maxDepth, hlev => by
      by_cases hguard : blocks.length = 0 ∨ maxDepth < level
      · simp only [processTreeGo, linesOfGo, if_pos hguard]
        simp [renderLines]
      · simp only [processTreeGo, linesOfGo, if_neg hguard, mapME_pure, zip_self_map,
          List.map_map]
        generalize stableSort orderKey blocks = l
        induction l with
        | nil => simp [seqPieces, renderLines]
        | cons b l ih =>
            simp only [Function.comp_def] at ih
            simp only [List.map_cons, List.flatten_cons, Function.comp_def, seqPieces]
            by_cases hc : b.children.length ≠ 0 ∧ level < maxDepth
            · rw [if_pos hc, if_pos hc]
              have hind : indentStr (level - 1) ++ "  ".data = indentStr (level + 1 - 1) := by
                rw [indentStr_succ]
                congr 1
                omega
              rw [hind] at ih ⊢
              rw [processTreeGo_pure r fuel b.children (level + 1) maxDepth
                (Nat.le_add_left 1 level)]
              rw [ih]
              simp only [Except.ok.injEq, Prod.mk.injEq, renderLines, renderLine, List.map_cons,
                List.map_append, List.flatten_cons, List.flatten_append, List.length_cons,
                List.length_append, List.append_assoc, List.append_nil]
              exact ⟨trivial, by omega⟩
            · rw [if_neg hc, if_neg hc]
              rw [ih]
              simp only [Except.ok.injEq, Prod.mk.injEq, renderLines, renderLine, List.map_cons,
                List.map_append, List.flatten_cons, List.flatten_append, List.length_cons,
                List.length_append, List.append_assoc, List.append_nil, List.map_nil,
                List.flatten_nil, List.nil_append, List.length_nil]

/-- An element of `getLast?` is an element of the list. -/
theorem mem_of_mem_getLast? {α : Type} {l : List α} {x : α} (h : x ∈ l.getLast?) : x ∈ l := by
  rcases List.mem_getLast?_eq_getLast h with ⟨hne, hx⟩
  rw [hx]
  exact List.getLast_mem hne

/-- Inserting grows the length by one. -/
theorem insertStable_length {α : Type} (key : α → Int) (a : α) :
    ∀ l : List α, (insertStable key a l).length = l.length + 1
  | [] => rfl
  | b :: bs => by
      simp only [insertStable]
      split
      · simp
      · simp [insertStable_length key a bs]

/-- Sorting preserves the length. -/
theorem stableSort_length {α : Type} (key : α → Int) :
    ∀ l : List α, (stableSort key l).length = l.length
  | [] => rfl
  | a :: as => by
      simp [stableSort, insertStable_length, stableSort_length key as]

/-- The depth bounds, head depth and step bound of the line listing: every
line has depth between `level - 1` and `maxDepth - 1`; the first line sits at
depth `level - 1`; and no line is more than one level deeper than the line
before it. -/
theorem linesOfGo_props (r : Str → Str) :
    ∀ (fuel : Nat) (blocks : List BlockNode) (level maxDepth : Nat), 1 ≤ level →
      (∀ p ∈ linesOfGo r fuel blocks level maxDepth, level - 1 ≤ p.1 ∧ p.1 < maxDepth) ∧
      (∀ p, (linesOfGo r fuel blocks level maxDepth).head? = some p → p.1 = level - 1) ∧
      List.Chain' (fun a b => b.1 ≤ a.1 + 1) (linesOfGo r fuel blocks level maxDepth)
  | 0, blocks, level, maxDepth, _ => by simp [linesOfGo]
  | fuel + 1, blocks, level, maxDepth, hlev => by
      by_cases hguard : blocks.length = 0 ∨ maxDepth < level
      · simp [linesOfGo, if_pos hguard]
      · have hmax : level ≤ maxDepth := by
          rcases Nat.lt_or_ge maxDepth level with h | h
          · exact absurd (Or.inr h) hguard
          · exact h
        simp only [linesOfGo, if_neg hguard]
        generalize stableSort orderKey blocks = l
        induction l with
        | nil => simp
        | cons b l ihl =>
            obtain ⟨ih1, ih2, ih3⟩ := ihl
            simp only [List.map_cons, List.flatten_cons]
            by_cases hc : b.children.length ≠ 0 ∧ level < maxDepth
            · obtain ⟨hc1, hc2, hc3⟩ :=
                linesOfGo_props r fuel b.children (level + 1) maxDepth (by omega)
              rw [if_pos hc]
              have hCLmem : ∀ q ∈ linesOfGo r fuel b.children (level + 1) maxDepth,
                  level ≤ q.1 ∧ q.1 < maxDepth := by
                intro q hq
                have h := hc1 q hq
                omega
              have hCLhead : ∀ q,
                  (linesOfGo r fuel b.children (level + 1) maxDepth).head? = some q →
                  q.1 = level := by
                intro q hq
                have h := hc2 q hq
                omega
              refine ⟨?_, ?_, ?_⟩
              · intro p hp
                simp only [List.cons_append, List.mem_cons, List.mem_append] at hp
                rcases hp with rfl | hp | hp
                · exact ⟨Nat.le_refl _, by omega⟩
                · have h := hCLmem p hp
                  exact ⟨by omega, h.2⟩
                · exact ih1 p hp
              · intro p hp
                simp only [List.cons_append, List.head?_cons, Option.some.injEq] at hp
                rw [← hp]
              · rw [List.cons_append]
                refine List.chain'_cons'.mpr ⟨?_, ?_⟩
                · intro y hy
                  rcases hl : (linesOfGo r fuel b.children (level + 1) maxDepth) with _ | ⟨q0, CL⟩
                  · rw [hl] at hy
                    simp only [List.nil_append] at hy
                    have := ih2 y hy
                    omega
                  · rw [hl] at hy
                    simp only [List.cons_append, List.head?_cons, Option.mem_def,
                      Option.some.injEq] at hy
                    have := hCLhead y (by rw [hl, ← hy]; rfl)
                    omega
                · refine List.chain'_append.mpr ⟨hc3, ih3, ?_⟩
                  intro x hx y hy
                  have hxm := hCLmem x (mem_of_mem_getLast? hx)
                  have hym := ih2 y hy
                  omega
            · rw [if_neg hc]
              refine ⟨?_, ?_, ?_⟩
              · intro p hp
                simp only [List.cons_append, List.nil_append, List.mem_cons] at hp
                rcases hp with rfl | hp
                · exact ⟨Nat.le_refl _, by omega⟩
                · exact ih1 p hp
              · intro p hp
                simp only [List.cons_append, List.nil_append, List.head?_cons,
                  Option.some.injEq] at hp
                rw [← hp]
              · simp only [List.cons_append, List.nil_append]
                refine List.chain'_cons'.mpr ⟨?_, ih3⟩
                intro y hy
                have := ih2 y hy
                omega

/-- C6: for every requested depth `d`, the descendant traversal renders (with
a total reference resolver) exactly its depth-annotated line listing, and that
listing satisfies the depth invariants: every rendered node has depth at most
`min d 7` (the fixed system ceiling is 7), the starting block is rendered at
depth 0, and no line is rendered more than one level deeper than the line
before it — i.e. every node sits exactly one level below its parent. -/
theorem descendant_depth_invariant (r : Str → Str) (root : BlockNode) (d : Nat) :
    processTree (fun s => .ok (r s)) [root] 1 (min d 7) [] =
      .ok (renderLines (linesOf r [root] 1 (min d 7)),
        (linesOf r [root] 1 (min d 7)).length) ∧
    (∀ p ∈ linesOf r [root] 1 (min d 7), p.1 ≤ min d 7) ∧
    (∀ p, (linesOf r [root] 1 (min d 7)).head? = some p → p.1 = 0) ∧
    List.Chain' (fun a b => b.1 ≤ a.1 + 1) (linesOf r [root] 1 (min d 7)) := by
  have h1 := processTreeGo_pure r (min d 7 + 1 - 1) [root] 1 (min d 7) (Nat.le_refl 1)
  have h2 := linesOfGo_props r (min d 7 + 1 - 1) [root] 1 (min d 7) (Nat.le_refl 1)
  refine ⟨h1, fun p hp => Nat.le_of_lt (h2.1 p hp).2, h2.2.1, h2.2.2⟩

/-- Witness for C6: on `rootExample` with requested depth 3, the line for
child `a` appears at depth 1, within the bound `min 3 7`. -/
theorem descendant_depth_invariant_witness :
    ((1 : Nat), "b".data) ∈ linesOf (fun s => s) [rootExample] 1 (min 3 7) ∧
    (1 : Nat) ≤ min 3 7 :=
  ⟨by decide,
    (descendant_depth_invariant (fun s => s) rootExample 3).2.1 (1, "b".data) (by decide)⟩

/-- C3: counter-evidence.  On a chain `child ← nearest ← farthest` whose
transitive-ancestor query returns the rows nearest-first (with the `get-else`
depth defaulting to 1 for both rows, as on any graph without a
`:block/path-length` attribute), `execute` renders the ancestors in the raw
query order — nearest ancestor outermost — and not in the
farthest-ancestor-first order the specification requires: there is no reverse
step, and the sort key is the constant 1. -/
theorem ancestor_render_order_bug :
    (execute envChain paramsChain).matches'.map (fun m => m.content) =
      ["- nearest\n  - farthest\n    - child\n".data] ∧
    "- nearest\n  - farthest\n    - child\n".data ≠
      "- farthest\n  - nearest\n    - child\n".data := by
  constructor
  · decide
  · decide

/-! ## Oversized single-line output (C8) -/

/-- If no newline occurs at or before index `k`, the search reports none. -/
theorem lastNewlineLe_none (l : Str) :
    ∀ k : Nat, (∀ i, i ≤ k → l.get? i ≠ some '\n') → lastNewlineLe l k = none
  | 0, h => by
      simp only [lastNewlineLe]
      rw [if_neg (h 0 (Nat.le_refl 0))]
  | k + 1, h => by
      simp only [lastNewlineLe]
      rw [if_neg (h (k + 1) (Nat.le_refl _)),
        lastNewlineLe_none l k (fun i hi => h i (Nat.le_succ_of_le hi))]

/-- One unfolding of the split loop on an over-long text. -/
theorem split_step (rem : Str) (m : Nat) (hm : 1 ≤ m) (hlen : ¬ rem.length ≤ m) :
    splitTextIntoParts rem m =
      rem.take (splitCutPoint rem m) ::
        splitTextIntoParts (rem.drop (splitCutPoint rem m)) m := by
  have hne : rem ≠ [] := by
    intro h
    rw [h] at hlen
    simp at hlen
  obtain ⟨k, hk⟩ : ∃ k, rem.length = k + 1 := ⟨rem.length - 1, by omega⟩
  have hc1 : 1 ≤ splitCutPoint rem m := splitCutPoint_pos rem m hm
  have hd1 : (rem.drop (splitCutPoint rem m)).length ≤ k := by
    simp only [List.length_drop]
    omega
  unfold splitTextIntoParts
  rw [hk]
  simp only [splitGo, if_neg hne, if_neg hlen]
  exact congrArg (List.cons (rem.take (splitCutPoint rem m)))
    (splitGo_fuelIrrel k (rem.drop (splitCutPoint rem m)).length
      (rem.drop (splitCutPoint rem m)) m hm hd1 (Nat.le_refl _))

/-- The split of a text that fits in one part. -/
theorem split_last (rem : Str) (m : Nat) (hne : rem ≠ []) (hlen : rem.length ≤ m) :
    splitTextIntoParts rem m = [rem] := by
  have hpos : 1 ≤ rem.length := List.length_pos.mpr hne
  obtain ⟨k, hk⟩ : ∃ k, rem.length = k + 1 := ⟨rem.length - 1, by omega⟩
  unfold splitTextIntoParts
  rw [hk]
  simp [splitGo, hne, hlen]

/-- `bigContent` as a replicate term. -/
theorem bigContent_def : bigContent = List.replicate 5001 'a' := rfl

/-- The length of the oversized single-line rendering. -/
theorem bigLine_length : (("- ".data ++ (bigContent ++ "\n".data)) : Str).length = 5004 := by
  rw [List.length_append, List.length_append, bigContent_def, List.length_replicate]
  rfl

/-- When the window holds no newline, the hard cut `maxSize` is chosen. -/
theorem splitCutPoint_of_none {rem : Str} {m : Nat} (h : lastNewlineLe rem m = none) :
    splitCutPoint rem m = m := by
  unfold splitCutPoint
  rw [h]

/-- The oversized single-line rendering has no newline in the first 5001
characters: its only newline is the terminal one at index 5003. -/
theorem bigLine_no_newline : ∀ i, i ≤ 5000 →
    (("- ".data ++ (bigContent ++ "\n".data)) : Str).get? i ≠ some '\n' := by
  intro i hi hcon
  have hsplit : ("- ".data ++ (bigContent ++ "\n".data) : Str) =
      ("- ".data ++ bigContent) ++ "\n".data := (List.append_assoc _ _ _).symm
  rw [hsplit] at hcon
  have hiA : i < (("- ".data ++ bigContent : Str)).length := by
    rw [List.length_append, bigContent_def, List.length_replicate]
    norm_num
    omega
  rw [List.get?_append hiA] at hcon
  have hmem : '\n' ∈ ("- ".data ++ bigContent : Str) := List.get?_mem hcon
  rw [bigContent_def] at hmem
  rcases List.mem_append.mp hmem with h | h
  · exact absurd h (by decide)
  · exact absurd (List.eq_of_mem_replicate h) (by decide)

/-- The concrete split of the 5004-character single-line rendering: a hard cut
at 5000 (there is no newline in the search window) followed by the
4-character rest. -/
theorem splitParts_big :
    splitTextIntoParts ("- ".data ++ (bigContent ++ "\n".data)) 5000 =
      [(("- ".data ++ (bigContent ++ "\n".data)) : Str).take 5000,
        (("- ".data ++ (bigContent ++ "\n".data)) : Str).drop 5000] := by
  have hdl : ((("- ".data ++ (bigContent ++ "\n".data)) : Str).drop 5000).length = 4 := by
    rw [List.length_drop, bigLine_length]
  rw [split_step _ 5000 (by norm_num) (by rw [bigLine_length]; norm_num)]
  rw [splitCutPoint_of_none (lastNewlineLe_none _ 5000 bigLine_no_newline)]
  rw [split_last _ 5000 (by intro h; rw [h] at hdl; simp at hdl) (by rw [hdl]; norm_num)]

/-- The paginated branch of the size governor, spelled out. -/
theorem finalize_over (text : Str) (totalBlocks : Nat) (part : Int)
    (h : 5000 < text.length) :
    finalize text totalBlocks part =
      { success := true
        matches' := [{
          block_uid := "indented_hierarchy".data
          content := (splitTextIntoParts text 5000).getD
            ((min (max 1 part) ((splitTextIntoParts text 5000).length : Int) - 1).toNat) []
          is_indented_hierarchy := true
          total_parts := some (splitTextIntoParts text 5000).length
          current_part := some (min (max 1 part)
            ((splitTextIntoParts text 5000).length : Int)) }]
        message := mkSplitMessage totalBlocks (splitTextIntoParts text 5000).length
          (min (max 1 part) ((splitTextIntoParts text 5000).length : Int)) } := by
  unfold finalize
  rw [if_pos h]

/-- The ancestor branch for a block with no ancestors renders the single line
`"- " ++ content ++ "\n"` and counts one block. -/
theorem executeBody_ancestor_noparents (env : RemoteEnv) (c s cc : Str) (rows : List Str)
    (d : Nat) (part : Int)
    (hrows : env.childRows = .ok (s :: rows))
    (hres : env.resolve s = .ok cc)
    (hanc : env.ancestorRows = .ok []) :
    executeBody env none (some c) d part =
      .ok (finalize ("- ".data ++ (cc ++ "\n".data)) 1 part) := by
  unfold executeBody
  rw [hrows]
  simp only [hres, hanc, stableSort, List.take_nil, mapME, renderChain, indentStr,
    List.replicate, List.flatten_nil, List.nil_append, List.length_nil, Nat.zero_add,
    List.append_assoc]

/-- C8: counter-evidence.  When the whole rendered output is the single block
line `"- " ++ 5001*'a' ++ "\n"` (5004 characters, over the cap), `execute`
paginates it into two hard-cut parts and returns the first 5000 characters
with `total_parts = 2`; nothing is truncated and no truncation marker is
appended to the returned content. -/
theorem single_block_over_cap_paginated_cx :
    (execute envBig paramsBig).matches'.map (fun m => (m.content, m.total_parts)) =
      [((("- ".data ++ (bigContent ++ "\n".data)) : Str).take 5000, some 2)] ∧
    ∀ m ∈ (execute envBig paramsBig).matches', ¬ ("...".data <:+ m.content) := by
  have hE : execute envBig paramsBig =
      finalize ("- ".data ++ (bigContent ++ "\n".data)) 1 1 := by
    unfold execute
    simp only [paramsBig]
    rw [if_neg (by simp)]
    rw [executeBody_ancestor_noparents envBig ("c2".data) bigContent bigContent [] _ _
      rfl rfl rfl]
    rfl
  have hbig : 5000 < (("- ".data ++ (bigContent ++ "\n".data)) : Str).length := by
    rw [bigLine_length]
    norm_num
  have hM : (execute envBig paramsBig).matches' =
      [{ block_uid := "indented_hierarchy".data
         content := (("- ".data ++ (bigContent ++ "\n".data)) : Str).take 5000
         is_indented_hierarchy := true
         total_parts := some 2
         current_part := some 1 }] := by
    rw [hE, finalize_over _ 1 1 hbig, splitParts_big]
    rfl
  constructor
  · rw [hM]
    rfl
  · intro m hm hsub
    rw [hM] at hm
    simp only [List.mem_singleton] at hm
    subst hm
    have hdot : '.' ∈ (("- ".data ++ (bigContent ++ "\n".data)) : Str).take 5000 :=
      hsub.sublist.subset (by decide)
    have hdot2 : '.' ∈ (("- ".data ++ (bigContent ++ "\n".data)) : Str) :=
      List.take_subset _ _ hdot
    rcases List.mem_append.mp hdot2 with h | h
    · exact absurd h (by decide)
    · rcases List.mem_append.mp h with h | h
      · rw [bigContent_def] at h
        exact absurd (List.eq_of_mem_replicate h) (by decide)
      · exact absurd h (by decide)

/-- C8 (amended): an over-threshold rendered output — in particular a single
pathological line — is paginated, never truncated: `finalize` splits it into
at least two parts whose concatenation is exactly the full text (so no
truncation marker is ever appended), reports their number, and returns the
clamped requested part. -/
theorem oversize_paginates (text : Str) (totalBlocks : Nat) (part : Int)
    (h : 5000 < text.length) :
    2 ≤ (splitTextIntoParts text 5000).length ∧
    (splitTextIntoParts text 5000).flatten = text ∧
    (finalize text totalBlocks part).matches'.map (fun m => m.total_parts) =
      [some (splitTextIntoParts text 5000).length] ∧
    (finalize text totalBlocks part).matches'.map (fun m => m.content) =
      [(splitTextIntoParts text 5000).getD
        ((min (max 1 part) ((splitTextIntoParts text 5000).length : Int) - 1).toNat) []] := by
  have h2 : 2 ≤ (splitTextIntoParts text 5000).length := by
    rw [split_step text 5000 (by norm_num) (by omega)]
    simp only [List.length_cons]
    have hcle := splitCutPoint_le text 5000
    have hne : (text.drop (splitCutPoint text 5000)) ≠ [] := by
      intro hnil
      have hl := congrArg List.length hnil
      simp only [List.length_drop, List.length_nil] at hl
      omega
    have hnn := splitGo_ne_nil (text.drop (splitCutPoint text 5000)).length
      (text.drop (splitCutPoint text 5000)) 5000 hne (Nat.le_refl _)
    have hlen1 : 1 ≤ (splitTextIntoParts (text.drop (splitCutPoint text 5000)) 5000).length :=
      List.length_pos.mpr hnn
    omega
  refine ⟨h2, splitGo_flatten text.length text 5000 (by norm_num) (Nat.le_refl _), ?_, ?_⟩
  · rw [finalize_over text totalBlocks part h]
    rfl
  · rw [finalize_over text totalBlocks part h]
    rfl

/-- Witness for C8's amended statement on a 5001-character single-line text. -/
theorem oversize_paginates_witness :
    5000 < (List.replicate 5001 'a' : Str).length ∧
    2 ≤ (splitTextIntoParts (List.replicate 5001 'a') 5000).length ∧
    (splitTextIntoParts (List.replicate 5001 'a') 5000).flatten = List.replicate 5001 'a' := by
  have h : 5000 < (List.replicate 5001 'a' : Str).length := by
    rw [List.length_replicate]
    norm_num
  have hh := oversize_paginates (List.replicate 5001 'a') 1 1 h
  exact ⟨h, hh.1, hh.2.1⟩

end Roam
